import Mathlib

/-!
# HTTPCoreNativeCounters: the request-id counter

Shallow embedding of `Sources/HTTPCoreNativeCounters/NativeCounters.c`.

The file has three platform branches selected by an `#if` chain. Each one
declares a file-static counter `requestID` (initially 0) and a function
`nextRequestID` that performs one atomic read-modify-write on it.

* `uint64_t` values are `Nat` reduced modulo `2 ^ 64`.
* `LONG64` values (Windows) are `Int` in `[-2 ^ 63, 2 ^ 63)`.
* A call is one atomic step: it takes the counter and gives back the
  returned value together with the new counter. Read-modify-write operations
  on a single atomic object are totally ordered whatever memory order they
  name, so a run of concurrent callers is a sequence of such steps.
-/

namespace HTTPCore

/-! ## Machine integers -/

/-- Number of values of a `uint64_t`. -/
def UINT64_MOD : Nat := 2 ^ 64

/-- Largest `uint64_t`. -/
def UINT64_MAX : Nat := 2 ^ 64 - 1

/-- Smallest `LONG64`. -/
def LONG64_MIN : Int := -(2 ^ 63)

/-- Largest `LONG64`. -/
def LONG64_MAX : Int := 2 ^ 63 - 1

/-- Membership in the `LONG64` range. -/
def isLONG64 (v : Int) : Prop := LONG64_MIN ≤ v ∧ v ≤ LONG64_MAX

instance (v : Int) : Decidable (isLONG64 v) := by
  unfold isLONG64; exact inferInstance

/-- Two's-complement wrap of a mathematical integer into the `LONG64` range. -/
def wrapLONG64 (v : Int) : Int := (v + 2 ^ 63) % 2 ^ 64 - 2 ^ 63

/-- The C conversion `(uint64_t)v` of a `LONG64`: reduction modulo `2 ^ 64`. -/
def castUInt64 (v : Int) : Nat := (v % 2 ^ 64).toNat

/-! ## Platform primitives -/

/-- The C11 `atomic_fetch_add_explicit(obj, arg, order)` on an `_Atomic uint64_t`,
as one atomic step: the first component is the value held before the
addition (the function result), the second the value stored. -/
def atomic_fetch_add_explicit (obj : Nat) (arg : Nat) : Nat × Nat :=
  (obj, (obj + arg) % UINT64_MOD)

/-- The Windows `InterlockedIncrement64(Addend)` as one atomic step: the
variable is incremented with two's-complement wrapping; the first component
is the resulting incremented value (the function result), the second the
value stored. -/
def InterlockedIncrement64 (addend : Int) : Int × Int :=
  (wrapLONG64 (addend + 1), wrapLONG64 (addend + 1))

/-! ## The three branches of `NativeCounters.c` -/

namespace Apple

/-- Line 14: `static _Atomic uint64_t requestID = 0;`. -/
def requestID : Nat := 0

/-- Lines 16-19: `return atomic_fetch_add_explicit(&requestID, 1, memory_order_relaxed) + 1;`.
Result: (returned value, new counter). -/
def nextRequestID (requestID : Nat) : Nat × Nat :=
  let r := atomic_fetch_add_explicit requestID 1
  ((r.1 + 1) % UINT64_MOD, r.2)

end Apple

namespace Linux

/-- Line 27: `static _Atomic uint64_t requestID = 0;`. -/
def requestID : Nat := 0

/-- Lines 29-31: `return atomic_fetch_add_explicit(&requestID, 1, memory_order_relaxed) + 1;`.
Result: (returned value, new counter). -/
def nextRequestID (requestID : Nat) : Nat × Nat :=
  let r := atomic_fetch_add_explicit requestID 1
  ((r.1 + 1) % UINT64_MOD, r.2)

end Linux

namespace Win32

/-- Line 39: `static LONG64 requestID = 0;`. -/
def requestID : Int := 0

/-- Lines 41-44: `return (uint64_t)InterlockedIncrement64(&requestID);`.
Result: (returned value, new counter). -/
def nextRequestID (requestID : Int) : Nat × Int :=
  let r := InterlockedIncrement64 requestID
  (castUInt64 r.1, r.2)

end Win32

/-! ## Build-time platform selection -/

/-- The branches of the `#if` chain that define `nextRequestID`. -/
inductive Platform where
  | apple
  | linux
  | win32
  deriving DecidableEq, Repr

/-- Outcome of preprocessing `NativeCounters.c`. -/
inductive Build where
  | selected (p : Platform)
  | error (diagnostic : String)
  deriving DecidableEq, Repr

/-- Text of the `#error` directive on line 48. -/
def unsupportedDiagnostic : String :=
  "HTTPCoreNativeCounters is not supported on this platform."

/-- Lines 8-50: `#if defined(__APPLE__) ... #elif defined(__linux__) ...
#elif defined(_WIN32) ... #else #error ... #endif`, as a function of whether
each macro is defined. -/
def selectPlatform (apple linux win32 : Bool) : Build :=
  if apple then Build.selected Platform.apple
  else if linux then Build.selected Platform.linux
  else if win32 then Build.selected Platform.win32
  else Build.error unsupportedDiagnostic

/-- How a function body updates the counter. `plainIncrement` stands for an
unsynchronised `++requestID`, which no branch of the file uses. -/
inductive Mechanism where
  | atomicFetchAdd
  | interlockedIncrement
  | plainIncrement
  deriving DecidableEq, Repr

/-- The primitive called in the body of `nextRequestID` on each branch
(lines 18, 30 and 43). -/
def Platform.mechanism : Platform → Mechanism
  | Platform.apple => Mechanism.atomicFetchAdd
  | Platform.linux => Mechanism.atomicFetchAdd
  | Platform.win32 => Mechanism.interlockedIncrement

/-- Whether a mechanism is a single atomic read-modify-write. -/
def Mechanism.isAtomic : Mechanism → Bool
  | Mechanism.atomicFetchAdd => true
  | Mechanism.interlockedIncrement => true
  | Mechanism.plainIncrement => false

/-! ## A uniform view of the selected branch -/

/-- Type of the counter variable on each branch. -/
@[reducible] def Platform.Counter : Platform → Type
  | Platform.apple => Nat
  | Platform.linux => Nat
  | Platform.win32 => Int

/-- Initial value of `requestID` on each branch. -/
def Platform.requestID : (p : Platform) → p.Counter
  | Platform.apple => Apple.requestID
  | Platform.linux => Linux.requestID
  | Platform.win32 => Win32.requestID

/-- One call of `nextRequestID` on the given branch: (returned value, new counter). -/
def Platform.nextRequestID : (p : Platform) → p.Counter → Nat × p.Counter
  | Platform.apple => Apple.nextRequestID
  | Platform.linux => Linux.nextRequestID
  | Platform.win32 => Win32.nextRequestID

/-- The counter read as an unsigned 64-bit pattern: itself for `uint64_t`,
the two's-complement reinterpretation for `LONG64`. -/
def Platform.bits : (p : Platform) → p.Counter → Nat
  | Platform.apple => fun c => c
  | Platform.linux => fun c => c
  | Platform.win32 => fun c => castUInt64 c

/-- Values the counter variable can hold on each branch. -/
def Platform.inRange : (p : Platform) → p.Counter → Prop
  | Platform.apple => fun c => c < UINT64_MOD
  | Platform.linux => fun c => c < UINT64_MOD
  | Platform.win32 => fun c => isLONG64 c

/-! ## Runs -/

/-- Counter after `n` calls starting from counter `c`. -/
def counterFrom (p : Platform) (c : p.Counter) : Nat → p.Counter
  | 0 => c
  | n + 1 => (p.nextRequestID (counterFrom p c n)).2

/-- Counter after `n` calls from the initial state. -/
def counterAfter (p : Platform) (n : Nat) : p.Counter :=
  counterFrom p p.requestID n

/-- Value returned by the `n`-th call (1-indexed) from the initial state;
there is no 0-th call. -/
def nthCall (p : Platform) : Nat → Option Nat
  | 0 => none
  | n + 1 => some (p.nextRequestID (counterAfter p n)).1

/-- Values returned by `n` sequential calls starting from counter `c`, in call
order, with the final counter. -/
def calls (p : Platform) : Nat → p.Counter → List Nat × p.Counter
  | 0, c => ([], c)
  | n + 1, c =>
    let r := p.nextRequestID c
    let rest := calls p n r.2
    (r.1 :: rest.1, rest.2)

/-- A run of concurrent callers: the schedule lists, in the order of the
atomic steps, which thread performs each call. The result pairs every call's
thread with the value it was given, and carries the final counter. -/
def runSchedule (p : Platform) {k : Nat} : List (Fin k) → p.Counter → List (Fin k × Nat) × p.Counter
  | [], c => ([], c)
  | t :: ts, c =>
    let r := p.nextRequestID c
    let rest := runSchedule p ts r.2
    ((t, r.1) :: rest.1, rest.2)

/-- Every one of the `k` threads makes exactly `m` calls in the schedule. -/
def isInterleaving (k m : Nat) (sched : List (Fin k)) : Prop :=
  ∀ t : Fin k, sched.count t = m

instance (k m : Nat) (sched : List (Fin k)) : Decidable (isInterleaving k m sched) := by
  unfold isInterleaving; exact inferInstance

/-- All values handed out in a run, in the order of the atomic steps. -/
def returnedValues (p : Platform) {k : Nat} (sched : List (Fin k)) : List Nat :=
  ((runSchedule p sched p.requestID).1).map Prod.snd

/-! ## Basic facts -/

theorem UINT64_MOD_eq : UINT64_MOD = 18446744073709551616 := by
  norm_num [UINT64_MOD]

theorem castUInt64_lt (v : Int) : castUInt64 v < UINT64_MOD := by
  rw [UINT64_MOD_eq]; unfold castUInt64; norm_num; omega

theorem wrapLONG64_isLONG64 (v : Int) : isLONG64 (wrapLONG64 v) := by
  unfold isLONG64 wrapLONG64 LONG64_MIN LONG64_MAX; norm_num; omega

theorem castUInt64_wrap_succ (v : Int) :
    castUInt64 (wrapLONG64 (v + 1)) = (castUInt64 v + 1) % UINT64_MOD := by
  rw [UINT64_MOD_eq]; unfold castUInt64 wrapLONG64; norm_num; omega

theorem castUInt64_inj (c d : Int) (hc : isLONG64 c) (hd : isLONG64 d)
    (h : castUInt64 c = castUInt64 d) : c = d := by
  unfold isLONG64 LONG64_MIN LONG64_MAX at hc hd
  unfold castUInt64 at h
  norm_num at hc hd h
  omega

/-- On every branch the returned value is the successor, modulo `2 ^ 64`, of
the counter's bit pattern. -/
theorem ret_eq (p : Platform) (c : p.Counter) :
    (p.nextRequestID c).1 = (p.bits c + 1) % UINT64_MOD := by
  cases p
  · rfl
  · rfl
  · exact castUInt64_wrap_succ c

/-- On every branch the new counter's bit pattern is the returned value. -/
theorem bits_next (p : Platform) (c : p.Counter) :
    p.bits (p.nextRequestID c).2 = (p.bits c + 1) % UINT64_MOD := by
  cases p
  · rfl
  · rfl
  · exact castUInt64_wrap_succ c

/-- The counter variable stays in its type's range after a call. -/
theorem inRange_next (p : Platform) (c : p.Counter) :
    p.inRange (p.nextRequestID c).2 := by
  cases p
  · exact Nat.mod_lt _ (by norm_num [UINT64_MOD])
  · exact Nat.mod_lt _ (by norm_num [UINT64_MOD])
  · exact wrapLONG64_isLONG64 _

theorem bits_lt (p : Platform) (c : p.Counter) (h : p.inRange c) :
    p.bits c < UINT64_MOD := by
  cases p
  · exact h
  · exact h
  · exact castUInt64_lt c

/-- The bit pattern determines the counter within its range. -/
theorem bits_inj (p : Platform) (c d : p.Counter) (hc : p.inRange c) (hd : p.inRange d)
    (h : p.bits c = p.bits d) : c = d := by
  cases p
  · exact h
  · exact h
  · exact castUInt64_inj c d hc hd h

theorem bits_apple (c : Nat) : Platform.apple.bits c = c := rfl

theorem bits_linux (c : Nat) : Platform.linux.bits c = c := rfl

theorem bits_requestID (p : Platform) : p.bits p.requestID = 0 := by
  cases p <;> rfl

theorem inRange_requestID (p : Platform) : p.inRange p.requestID := by
  cases p
  · show (0 : Nat) < UINT64_MOD
    norm_num [UINT64_MOD]
  · show (0 : Nat) < UINT64_MOD
    norm_num [UINT64_MOD]
  · show isLONG64 0
    unfold isLONG64 LONG64_MIN LONG64_MAX; norm_num

/-! ## Facts about runs -/

theorem bits_counterFrom (p : Platform) (c : p.Counter) (n : Nat) :
    p.bits (counterFrom p c n) % UINT64_MOD = (p.bits c + n) % UINT64_MOD := by
  induction n with
  | zero => rfl
  | succ n ih =>
    show p.bits (p.nextRequestID (counterFrom p c n)).2 % UINT64_MOD = _
    rw [bits_next, Nat.mod_mod, Nat.add_mod, ih, ← Nat.add_mod]
    rfl

theorem inRange_counterAfter (p : Platform) (n : Nat) : p.inRange (counterAfter p n) := by
  cases n with
  | zero => exact inRange_requestID p
  | succ n => exact inRange_next p _

/-- After `n` calls the counter's bit pattern is `n` modulo `2 ^ 64`. -/
theorem bits_counterAfter (p : Platform) (n : Nat) :
    p.bits (counterAfter p n) = n % UINT64_MOD := by
  have h := bits_counterFrom p p.requestID n
  rw [bits_requestID, Nat.zero_add] at h
  rw [← h]
  exact (Nat.mod_eq_of_lt (bits_lt p _ (inRange_counterAfter p n))).symm

/-- The `(n + 1)`-th call returns `n + 1` modulo `2 ^ 64`. -/
theorem nthCall_succ (p : Platform) (n : Nat) :
    nthCall p (n + 1) = some ((n + 1) % UINT64_MOD) := by
  show some (p.nextRequestID (counterAfter p n)).1 = _
  rw [ret_eq, bits_counterAfter, Nat.mod_add_mod]

theorem nthCall_pos (p : Platform) (n : Nat) (h : 1 ≤ n) :
    nthCall p n = some (n % UINT64_MOD) := by
  obtain ⟨m, rfl⟩ : ∃ m, n = m + 1 := ⟨n - 1, by omega⟩
  exact nthCall_succ p m

theorem calls_fst (p : Platform) (n : Nat) (c : p.Counter) :
    (calls p n c).1 = (List.range n).map (fun i => (p.bits c + i + 1) % UINT64_MOD) := by
  induction n generalizing c with
  | zero => rfl
  | succ n ih =>
    show (p.nextRequestID c).1 :: (calls p n (p.nextRequestID c).2).1 = _
    rw [ih, List.range_succ_eq_map, List.map_cons, List.map_map, ret_eq, bits_next]
    congr 1
    apply List.map_congr_left
    intro i _
    simp only [Function.comp_apply, UINT64_MOD_eq]
    omega

theorem calls_snd (p : Platform) (n : Nat) (c : p.Counter) :
    (calls p n c).2 = counterFrom p c n := by
  induction n generalizing c with
  | zero => rfl
  | succ n ih =>
    show (calls p n (p.nextRequestID c).2).2 = _
    rw [ih]
    clear ih
    induction n with
    | zero => rfl
    | succ n ih2 =>
      show (p.nextRequestID (counterFrom p (p.nextRequestID c).2 n)).2 = _
      rw [ih2]
      rfl

/-- Before the counter wraps, `n` calls from the initial state return `1, ..., n`. -/
theorem calls_initial (p : Platform) (n : Nat) (h : n ≤ UINT64_MAX) :
    (calls p n p.requestID).1 = List.range' 1 n := by
  rw [calls_fst, bits_requestID, List.range'_eq_map_range]
  apply List.map_congr_left
  intro i hi
  have hi2 := List.mem_range.mp hi
  have hM : UINT64_MAX = 18446744073709551615 := by norm_num [UINT64_MAX]
  simp only [UINT64_MOD_eq]
  omega

theorem runSchedule_fst (p : Platform) {k : Nat} (sched : List (Fin k)) (c : p.Counter) :
    ((runSchedule p sched c).1).map Prod.snd = (calls p sched.length c).1 := by
  induction sched generalizing c with
  | nil => rfl
  | cons t ts ih =>
    show (p.nextRequestID c).1 :: ((runSchedule p ts (p.nextRequestID c).2).1).map Prod.snd = _
    rw [ih]
    rfl

theorem returnedValues_eq (p : Platform) {k : Nat} (sched : List (Fin k))
    (h : sched.length ≤ UINT64_MAX) :
    returnedValues p sched = List.range' 1 sched.length := by
  unfold returnedValues
  rw [runSchedule_fst, calls_initial p _ h]

theorem interleaving_length (k m : Nat) (sched : List (Fin k))
    (h : isInterleaving k m sched) : sched.length = k * m := by
  have h1 : (Finset.univ : Finset (Fin k)).sum (fun t => sched.count t) = sched.length := by
    have := Multiset.sum_count_eq_card (s := (Finset.univ : Finset (Fin k))) (m := (sched : Multiset (Fin k)))
      (fun a _ => Finset.mem_univ a)
    simpa using this
  rw [← h1, Finset.sum_congr rfl (fun t _ => h t)]
  simp

theorem UINT64_MAX_eq : UINT64_MAX = 18446744073709551615 := by
  norm_num [UINT64_MAX]

/-- Every entry of a run of sequential calls is the matching `nthCall`. -/
theorem calls_get (p : Platform) (n i : Nat) (h : i < n) :
    (calls p n p.requestID).1.get? i = nthCall p (i + 1) := by
  rw [calls_fst, bits_requestID, nthCall_succ, List.get?_eq_getElem?, List.getElem?_map,
    List.getElem?_range h]
  simp

/-! ## Sequential contract -/

/-- C1: on every branch, for `1 ≤ n ≤ 2 ^ 64 - 1` the `n`-th sequential call from
the initial counter (which is 0) returns exactly `n`, the first `n` calls
return `1, ..., n` in order, and five sequential calls return `[1, 2, 3, 4, 5]`. -/
theorem nthCall_eq_index (p : Platform) (n : Nat) (h1 : 1 ≤ n) (h2 : n ≤ UINT64_MAX) :
    p.bits p.requestID = 0 ∧ nthCall p n = some n ∧
    (calls p n p.requestID).1 = List.range' 1 n ∧
    (calls p 5 p.requestID).1 = [1, 2, 3, 4, 5] := by
  refine ⟨bits_requestID p, ?_, calls_initial p n h2, ?_⟩
  · rw [nthCall_pos p n h1, Nat.mod_eq_of_lt]
    rw [UINT64_MOD_eq]; rw [UINT64_MAX_eq] at h2; omega
  · rw [calls_initial p 5 (by rw [UINT64_MAX_eq]; omega)]
    rfl

theorem nthCall_eq_index_witness :
    1 ≤ 3 ∧ 3 ≤ UINT64_MAX ∧ nthCall Platform.linux 3 = some 3 ∧
    (calls Platform.linux 3 Platform.linux.requestID).1 = [1, 2, 3] :=
  ⟨by decide, by norm_num [UINT64_MAX],
    (nthCall_eq_index Platform.linux 3 (by decide) (by norm_num [UINT64_MAX])).2.1,
    (nthCall_eq_index Platform.linux 3 (by decide) (by norm_num [UINT64_MAX])).2.2.1⟩

/-- C2: on every branch and for every value the counter can hold, one call of
`nextRequestID` returns the counter plus one modulo `2 ^ 64`, the counter after
the call holds that returned value (as a 64-bit pattern), the returned value is
never the pre-increment value, and the counter stays in range. -/
theorem nextRequestID_post_increment (p : Platform) (c : p.Counter) (h : p.inRange c) :
    (p.nextRequestID c).1 = (p.bits c + 1) % UINT64_MOD ∧
    p.bits (p.nextRequestID c).2 = (p.nextRequestID c).1 ∧
    (p.nextRequestID c).1 ≠ p.bits c ∧
    p.inRange (p.nextRequestID c).2 := by
  refine ⟨ret_eq p c, ?_, ?_, inRange_next p c⟩
  · rw [bits_next, ret_eq]
  · rw [ret_eq]
    have hb := bits_lt p c h
    rw [UINT64_MOD_eq] at hb ⊢
    omega

theorem nextRequestID_post_increment_witness :
    Platform.apple.inRange (41 : Nat) ∧
    (Platform.apple.nextRequestID (41 : Nat)).1 = (Platform.apple.bits (41 : Nat) + 1) % UINT64_MOD ∧
    Platform.apple.bits (Platform.apple.nextRequestID (41 : Nat)).2
      = (Platform.apple.nextRequestID (41 : Nat)).1 ∧
    (Platform.apple.nextRequestID (41 : Nat)).1 ≠ Platform.apple.bits (41 : Nat) ∧
    Platform.apple.inRange (Platform.apple.nextRequestID (41 : Nat)).2 :=
  ⟨show (41 : Nat) < UINT64_MOD by norm_num [UINT64_MOD],
    nextRequestID_post_increment Platform.apple (41 : Nat)
      (show (41 : Nat) < UINT64_MOD by norm_num [UINT64_MOD])⟩

/-! ## Concurrent contract -/

/-- C3: with each call one atomic step on the shared counter starting at 0, for
all `k` and `m` with `k * m < 2 ^ 64` and every interleaving of `k` threads
making `m` calls each, the `k * m` returned values have no duplicates and are
exactly the integers from 1 to `k * m`. -/
theorem interleaving_returns_range (p : Platform) (k m : Nat) (sched : List (Fin k))
    (hkm : k * m < UINT64_MOD) (hs : isInterleaving k m sched) :
    (returnedValues p sched).length = k * m ∧
    (returnedValues p sched).Nodup ∧
    ∀ v : Nat, v ∈ returnedValues p sched ↔ 1 ≤ v ∧ v ≤ k * m := by
  have hlen := interleaving_length k m sched hs
  have hle : sched.length ≤ UINT64_MAX := by
    rw [hlen, UINT64_MAX_eq]; rw [UINT64_MOD_eq] at hkm; omega
  rw [returnedValues_eq p sched hle, hlen]
  refine ⟨List.length_range' _ _ _, List.nodup_range' 1 (k * m), ?_⟩
  intro v
  rw [List.mem_range'_1]
  omega

theorem interleaving_returns_range_witness :
    2 * 2 < UINT64_MOD ∧ isInterleaving 2 2 ([0, 1, 1, 0] : List (Fin 2)) ∧
    (returnedValues Platform.linux ([0, 1, 1, 0] : List (Fin 2))).length = 2 * 2 ∧
    (returnedValues Platform.linux ([0, 1, 1, 0] : List (Fin 2))).Nodup ∧
    ∀ v : Nat, v ∈ returnedValues Platform.linux ([0, 1, 1, 0] : List (Fin 2)) ↔
      1 ≤ v ∧ v ≤ 2 * 2 :=
  ⟨by norm_num [UINT64_MOD], by decide,
    interleaving_returns_range Platform.linux 2 2 [0, 1, 1, 0]
      (by norm_num [UINT64_MOD]) (by decide)⟩

/-- C4: starting from counter 0, any two different call positions among the
first `2 ^ 64 - 1` calls are given different values; the whole list of the
first `2 ^ 64 - 1` returned values has no duplicates. -/
theorem distinct_until_wrap (p : Platform) (i j : Nat) (hi1 : 1 ≤ i) (hi2 : i ≤ UINT64_MAX)
    (hj1 : 1 ≤ j) (hj2 : j ≤ UINT64_MAX) (hij : i ≠ j) :
    nthCall p i ≠ nthCall p j ∧
    (calls p UINT64_MAX p.requestID).1.get? (i - 1)
      ≠ (calls p UINT64_MAX p.requestID).1.get? (j - 1) ∧
    (calls p UINT64_MAX p.requestID).1.Nodup := by
  have hne : nthCall p i ≠ nthCall p j := by
    rw [nthCall_pos p i hi1, nthCall_pos p j hj1]
    intro h
    have h3 := Option.some.inj h
    rw [UINT64_MOD_eq] at h3
    rw [UINT64_MAX_eq] at hi2 hj2
    omega
  refine ⟨hne, ?_, ?_⟩
  · rw [calls_get p UINT64_MAX (i - 1) (by omega), calls_get p UINT64_MAX (j - 1) (by omega),
      Nat.sub_add_cancel hi1, Nat.sub_add_cancel hj1]
    exact hne
  · rw [calls_initial p UINT64_MAX (Nat.le_refl _)]
    exact List.nodup_range' 1 UINT64_MAX

theorem distinct_until_wrap_witness :
    1 ≤ 2 ∧ 2 ≤ UINT64_MAX ∧ 1 ≤ 7 ∧ 7 ≤ UINT64_MAX ∧ 2 ≠ 7 ∧
    nthCall Platform.win32 2 ≠ nthCall Platform.win32 7 :=
  ⟨by decide, by norm_num [UINT64_MAX], by decide, by norm_num [UINT64_MAX], by decide,
    (distinct_until_wrap Platform.win32 2 7 (by decide) (by norm_num [UINT64_MAX])
      (by decide) (by norm_num [UINT64_MAX]) (by decide)).1⟩

/-- C5: starting from counter 0, if call `i` precedes call `j` in the sequence
of atomic steps and both are among the first `2 ^ 64 - 1` calls, the value
returned to call `i` is strictly less than the value returned to call `j`; the
same holds position by position in every schedule of concurrent callers with at
most `2 ^ 64 - 1` steps. -/
theorem increasing_in_call_order (p : Platform) (i j : Nat) {k : Nat} (sched : List (Fin k))
    (hi : 1 ≤ i) (hij : i < j) (hj : j ≤ UINT64_MAX) (hlen : sched.length ≤ UINT64_MAX) :
    (∃ a b : Nat, nthCall p i = some a ∧ nthCall p j = some b ∧ a < b) ∧
    (returnedValues p sched).Pairwise (fun a b => a < b) := by
  constructor
  · refine ⟨i % UINT64_MOD, j % UINT64_MOD, nthCall_pos p i hi,
      nthCall_pos p j (by omega), ?_⟩
    rw [UINT64_MOD_eq]
    rw [UINT64_MAX_eq] at hj
    omega
  · rw [returnedValues_eq p sched hlen]
    exact List.pairwise_lt_range' 1 sched.length

theorem increasing_in_call_order_witness :
    1 ≤ 2 ∧ 2 < 5 ∧ 5 ≤ UINT64_MAX ∧ ([0, 2, 1, 1] : List (Fin 3)).length ≤ UINT64_MAX ∧
    (∃ a b : Nat, nthCall Platform.apple 2 = some a ∧ nthCall Platform.apple 5 = some b ∧ a < b) ∧
    (returnedValues Platform.apple ([0, 2, 1, 1] : List (Fin 3))).Pairwise (fun a b => a < b) :=
  ⟨by decide, by decide, by norm_num [UINT64_MAX], by norm_num [UINT64_MAX],
    increasing_in_call_order Platform.apple 2 5 ([0, 2, 1, 1] : List (Fin 3))
      (by decide) (by decide) (by norm_num [UINT64_MAX]) (by norm_num [UINT64_MAX])⟩

/-- C6: the id sequence starts at 1, not 0: before any call nothing has been
issued, the first call returns 1, and none of the first `2 ^ 64 - 1` calls
returns 0. -/
theorem zero_reserved_until_wrap (p : Platform) (n : Nat) (h1 : 1 ≤ n) (h2 : n ≤ UINT64_MAX) :
    nthCall p 0 = none ∧ nthCall p 1 = some 1 ∧ nthCall p n ≠ some 0 ∧
    0 ∉ (calls p n p.requestID).1 := by
  refine ⟨rfl, ?_, ?_, ?_⟩
  · rw [nthCall_pos p 1 (Nat.le_refl 1)]
    norm_num [UINT64_MOD]
  · rw [nthCall_pos p n h1]
    intro h
    have h3 := Option.some.inj h
    rw [UINT64_MOD_eq] at h3
    rw [UINT64_MAX_eq] at h2
    omega
  · rw [calls_initial p n h2, List.mem_range'_1]
    omega

theorem zero_reserved_until_wrap_witness :
    1 ≤ 4 ∧ 4 ≤ UINT64_MAX ∧ nthCall Platform.apple 0 = none ∧
    nthCall Platform.apple 1 = some 1 ∧ nthCall Platform.apple 4 ≠ some 0 ∧
    0 ∉ (calls Platform.apple 4 Platform.apple.requestID).1 :=
  ⟨by decide, by norm_num [UINT64_MAX],
    zero_reserved_until_wrap Platform.apple 4 (by decide) (by norm_num [UINT64_MAX])⟩

/-! ## Overflow -/

/-- C7: overflow is silent wraparound: after `2 ^ 64 - 1` calls from the
initial state the counter holds `2 ^ 64 - 1` (on Windows the `LONG64` value
`-1`, the same 64-bit pattern); the next call returns 0 and leaves the counter
at 0, and the call after that returns 1 again. -/
theorem overflow_wraps_to_zero (p : Platform) :
    p.bits (counterAfter p UINT64_MAX) = UINT64_MAX ∧
    p.nextRequestID (counterAfter p UINT64_MAX) = (0, p.requestID) ∧
    p.bits p.requestID = 0 ∧
    nthCall p (UINT64_MAX + 1) = some 0 ∧
    nthCall p (UINT64_MAX + 2) = some 1 ∧
    (counterAfter Platform.apple UINT64_MAX : Nat) = 2 ^ 64 - 1 ∧
    (counterAfter Platform.linux UINT64_MAX : Nat) = 2 ^ 64 - 1 ∧
    (counterAfter Platform.win32 UINT64_MAX : Int) = -1 := by
  have hb : ∀ q : Platform, q.bits (counterAfter q UINT64_MAX) = UINT64_MAX := by
    intro q
    rw [bits_counterAfter]
    norm_num [UINT64_MAX, UINT64_MOD]
  have hnext : p.nextRequestID (counterAfter p UINT64_MAX) = (0, p.requestID) := by
    apply Prod.ext
    · show (p.nextRequestID (counterAfter p UINT64_MAX)).1 = 0
      rw [ret_eq, hb]
      norm_num [UINT64_MAX, UINT64_MOD]
    · show (p.nextRequestID (counterAfter p UINT64_MAX)).2 = p.requestID
      apply bits_inj p _ _ (inRange_next p _) (inRange_requestID p)
      rw [bits_next, hb, bits_requestID]
      norm_num [UINT64_MAX, UINT64_MOD]
  refine ⟨hb p, hnext, bits_requestID p, ?_, ?_, ?_, ?_, ?_⟩
  · rw [nthCall_pos p (UINT64_MAX + 1) (by omega)]
    norm_num [UINT64_MAX, UINT64_MOD]
  · rw [nthCall_pos p (UINT64_MAX + 2) (by omega)]
    norm_num [UINT64_MAX, UINT64_MOD]
  · have h := hb Platform.apple
    rw [bits_apple] at h
    rw [h]
    norm_num [UINT64_MAX]
  · have h := hb Platform.linux
    rw [bits_linux] at h
    rw [h]
    norm_num [UINT64_MAX]
  · apply bits_inj Platform.win32 _ _ (inRange_counterAfter Platform.win32 _)
    · show isLONG64 (-1)
      unfold isLONG64 LONG64_MIN LONG64_MAX; norm_num
    · rw [hb Platform.win32]
      show UINT64_MAX = castUInt64 (-1)
      unfold castUInt64
      norm_num [UINT64_MAX]
      omega

/-- C10: with no bound on the number of calls, for every `n ≥ 1` the `n`-th
sequential call from the initial state returns `n mod 2 ^ 64`; calls `n` and
`n + 2 ^ 64` return the same value and no smaller positive shift does; 0 is
returned exactly at the calls whose index is a multiple of `2 ^ 64`. -/
theorem nthCall_periodic (p : Platform) (n : Nat) (h : 1 ≤ n) :
    nthCall p n = some (n % 2 ^ 64) ∧
    nthCall p (n + 2 ^ 64) = nthCall p n ∧
    (∀ d : Nat, 0 < d → d < 2 ^ 64 → nthCall p (n + d) ≠ nthCall p n) ∧
    (nthCall p n = some 0 ↔ 2 ^ 64 ∣ n) := by
  have hn := nthCall_pos p n h
  rw [UINT64_MOD_eq] at hn
  refine ⟨by rw [hn]; norm_num, ?_, ?_, ?_⟩
  · rw [nthCall_pos p (n + 2 ^ 64) (by omega), hn, UINT64_MOD_eq]
    norm_num
  · intro d hd0 hd1 heq
    rw [nthCall_pos p (n + d) (by omega), hn, UINT64_MOD_eq] at heq
    have h3 := Option.some.inj heq
    norm_num at hd1
    omega
  · rw [hn, Nat.dvd_iff_mod_eq_zero]
    norm_num

theorem nthCall_periodic_witness :
    1 ≤ 3 ∧ nthCall Platform.win32 3 = some (3 % 2 ^ 64) ∧
    nthCall Platform.win32 (3 + 2 ^ 64) = nthCall Platform.win32 3 ∧
    (∀ d : Nat, 0 < d → d < 2 ^ 64 → nthCall Platform.win32 (3 + d) ≠ nthCall Platform.win32 3) ∧
    (nthCall Platform.win32 3 = some 0 ↔ 2 ^ 64 ∣ 3) :=
  ⟨by decide, nthCall_periodic Platform.win32 3 (by decide)⟩

/-! ## Platform selection and equivalence of the branches -/

/-- C8: as a function of the macros `__APPLE__`, `__linux__` and `_WIN32`, the
build stops at the `#error` diagnostic exactly when none of the three is
defined; otherwise the first matching branch in the order Apple, Linux, Windows
is the one selected, and the selected branch always updates the counter with an
atomic primitive. -/
theorem selectPlatform_spec (apple linux win32 : Bool) :
    (selectPlatform apple linux win32 = Build.error unsupportedDiagnostic ↔
      (apple = false ∧ linux = false ∧ win32 = false)) ∧
    ((∃ q : Platform, selectPlatform apple linux win32 = Build.selected q) ↔
      (apple = true ∨ linux = true ∨ win32 = true)) ∧
    (apple = true → selectPlatform apple linux win32 = Build.selected Platform.apple) ∧
    (apple = false → linux = true →
      selectPlatform apple linux win32 = Build.selected Platform.linux) ∧
    (apple = false → linux = false → win32 = true →
      selectPlatform apple linux win32 = Build.selected Platform.win32) ∧
    (∀ q : Platform, selectPlatform apple linux win32 = Build.selected q →
      q.mechanism.isAtomic = true ∧ q.mechanism ≠ Mechanism.plainIncrement) := by
  cases apple <;> cases linux <;> cases win32 <;>
    simp [selectPlatform, Platform.mechanism, Mechanism.isAtomic]

/-- C9: the three branches are observationally equivalent. Reading the Windows
`LONG64` counter as a 64-bit pattern, for every counter state the Windows call
returns the same value as the Apple/Linux call and reaches the related state,
including at `2 ^ 63 - 1 → 2 ^ 63` and at `2 ^ 64 - 1 → 0`; the Apple and Linux
bodies coincide; hence all branches return the same ids for any number of calls. -/
theorem branches_equivalent (w : Int) (u n : Nat) (hw : isLONG64 w) (hu : u = castUInt64 w) :
    (Win32.nextRequestID w).1 = (Apple.nextRequestID u).1 ∧
    (Apple.nextRequestID u).2 = castUInt64 (Win32.nextRequestID w).2 ∧
    isLONG64 (Win32.nextRequestID w).2 ∧
    (Win32.nextRequestID w).2 = (if w = LONG64_MAX then LONG64_MIN else w + 1) ∧
    Linux.nextRequestID u = Apple.nextRequestID u ∧
    Win32.nextRequestID (2 ^ 63 - 1) = (2 ^ 63, -(2 ^ 63)) ∧
    Apple.nextRequestID (2 ^ 63 - 1) = (2 ^ 63, 2 ^ 63) ∧
    Win32.nextRequestID (-1) = (0, 0) ∧
    Apple.nextRequestID (2 ^ 64 - 1) = (0, 0) ∧
    (calls Platform.win32 n Platform.win32.requestID).1
      = (calls Platform.apple n Platform.apple.requestID).1 ∧
    (calls Platform.linux n Platform.linux.requestID).1
      = (calls Platform.apple n Platform.apple.requestID).1 ∧
    nthCall Platform.win32 n = nthCall Platform.apple n ∧
    nthCall Platform.linux n = nthCall Platform.apple n := by
  subst hu
  refine ⟨?_, ?_, wrapLONG64_isLONG64 _, ?_, rfl, ?_, ?_, ?_, ?_, ?_, ?_, ?_, ?_⟩
  · exact castUInt64_wrap_succ w
  · exact (castUInt64_wrap_succ w).symm
  · show wrapLONG64 (w + 1) = _
    unfold isLONG64 LONG64_MIN LONG64_MAX at hw
    unfold wrapLONG64 LONG64_MIN LONG64_MAX
    norm_num at hw ⊢
    split_ifs with h <;> omega
  · apply Prod.ext
    · show castUInt64 (wrapLONG64 (2 ^ 63 - 1 + 1)) = 2 ^ 63
      unfold castUInt64 wrapLONG64; norm_num; omega
    · show wrapLONG64 (2 ^ 63 - 1 + 1) = -(2 ^ 63)
      unfold wrapLONG64; norm_num
  · apply Prod.ext
    · show (2 ^ 63 - 1 + 1) % UINT64_MOD = 2 ^ 63
      norm_num [UINT64_MOD]
    · show (2 ^ 63 - 1 + 1) % UINT64_MOD = 2 ^ 63
      norm_num [UINT64_MOD]
  · apply Prod.ext
    · show castUInt64 (wrapLONG64 (-1 + 1)) = 0
      unfold castUInt64 wrapLONG64; norm_num
    · show wrapLONG64 (-1 + 1) = 0
      unfold wrapLONG64; norm_num
  · apply Prod.ext
    · show (2 ^ 64 - 1 + 1) % UINT64_MOD = 0
      norm_num [UINT64_MOD]
    · show (2 ^ 64 - 1 + 1) % UINT64_MOD = 0
      norm_num [UINT64_MOD]
  · rw [calls_fst, calls_fst, bits_requestID, bits_requestID]
  · rw [calls_fst, calls_fst, bits_requestID, bits_requestID]
  · cases n with
    | zero => rfl
    | succ n => rw [nthCall_succ, nthCall_succ]
  · cases n with
    | zero => rfl
    | succ n => rw [nthCall_succ, nthCall_succ]

theorem branches_equivalent_witness :
    isLONG64 (2 ^ 63 - 1) ∧ (2 ^ 63 : Nat) - 1 = castUInt64 (2 ^ 63 - 1) ∧
    (Win32.nextRequestID (2 ^ 63 - 1)).1 = (Apple.nextRequestID (2 ^ 63 - 1)).1 ∧
    (Apple.nextRequestID (2 ^ 63 - 1)).2 = castUInt64 (Win32.nextRequestID (2 ^ 63 - 1)).2 :=
  ⟨by unfold isLONG64 LONG64_MIN LONG64_MAX; norm_num,
    by unfold castUInt64; norm_num; omega,
    (branches_equivalent (2 ^ 63 - 1) (2 ^ 63 - 1) 3
      (by unfold isLONG64 LONG64_MIN LONG64_MAX; norm_num)
      (by unfold castUInt64; norm_num; omega)).1,
    (branches_equivalent (2 ^ 63 - 1) (2 ^ 63 - 1) 3
      (by unfold isLONG64 LONG64_MIN LONG64_MAX; norm_num)
      (by unfold castUInt64; norm_num; omega)).2.1⟩

end HTTPCore
